import Mathlib

/-!
Verification of the lazyhelm text-comparison subsystem: the YAML-ish
path resolver (`GetYAMLPath`), the structural differ (`DiffYAML`) from
the `ui` package, and the TTL cache (`Cache`) from `internal/helm/cache.go`.
Strings are modelled as lists of characters; Go's `int` line indices are
`Nat` where they are always non-negative and `Int` where the code compares
against negative values; wall-clock instants are `Int`.
-/

set_option maxRecDepth 4000

namespace LazyHelm

/-- A Go string, modelled as its list of characters. -/
abbrev Str := List Char

/-- The whitespace characters trimmed by `strings.TrimSpace` (ASCII subset,
which is all the code and claims exercise). -/
def isSpaceChar (c : Char) : Bool :=
  c = ' ' || c = '\t' || c = '\n' || c = '\r'

/-- `strings.TrimSpace`: drop whitespace from both ends of the line. -/
def trimSpace (s : Str) : Str :=
  ((s.dropWhile isSpaceChar).reverse.dropWhile isSpaceChar).reverse

/-- `strings.HasPrefix(s, c)` for a single-character prefix. -/
def hasPrefixChar (s : Str) (c : Char) : Bool :=
  match s with
  | [] => false
  | a :: _ => a = c

/-- `getIndentLevel` from `yaml_path.go`: count leading spaces (weight 1)
and tabs (weight 2), stopping at the first other character. -/
def getIndentLevel : Str → Nat
  | [] => 0
  | c :: cs =>
    if c = ' ' then 1 + getIndentLevel cs
    else if c = '\t' then 2 + getIndentLevel cs
    else 0

/-- `extractKey`: trim the line; if the trimmed text has a `:` at a
positive index, the key is the text before that first `:`, else `""`.
(`strings.Index(trimmed, ":") > 0`, returning `trimmed[:idx]`.) -/
def extractKey (line : Str) : Str :=
  let t := trimSpace line
  let pre := t.takeWhile (fun c => c ≠ ':')
  if 0 < pre.length ∧ pre.length < t.length then pre else []

/-- `strings.Split(s, "\n")`. -/
def splitLines : Str → List Str
  | [] => [[]]
  | c :: cs =>
    if c = '\n' then [] :: splitLines cs
    else
      match splitLines cs with
      | [] => [[c]]
      | l :: ls => (c :: l) :: ls

/-- `strings.Join(path, ".")`. -/
def joinDots : List Str → Str
  | [] => []
  | [p] => p
  | p :: ps => p ++ '.' :: joinDots ps

/-! ### Association-list model of Go maps

Go's `map[string]V` is modelled as an association list with unique keys:
`mapInsert` overwrites in place (Go assignment `m[k] = v`), `mapLookup` is
`m[k]`.  Go's randomized map iteration order is fixed to insertion order;
no claim depends on the order in which map entries are enumerated. -/

/-- Assignment `m[k] = v` on an association list: replace the entry for
`k` in place, or append a new entry. -/
def mapInsert {α : Type} (m : List (Str × α)) (k : Str) (v : α) : List (Str × α) :=
  match m with
  | [] => [(k, v)]
  | e :: es => if e.1 = k then (k, v) :: es else e :: mapInsert es k v

/-- Lookup `m[k]` on an association list. -/
def mapLookup {α : Type} (m : List (Str × α)) (k : Str) : Option α :=
  match m with
  | [] => none
  | e :: es => if e.1 = k then some e.2 else mapLookup es k

/-! ### The differ (`DiffYAML`) -/

/-- One element of `DiffYAML`'s result (Go struct `DiffLine`): a tag
string (`"added"`, `"removed"`, `"unchanged"`, `"modified"`), the line
text and the originating line number. -/
structure DiffLine where
  type : Str
  line : Str
  lineNum : Nat
  deriving DecidableEq, Repr

/-- The per-side key map of `DiffYAML`: extracted key ↦ (line, index). -/
abbrev DiffMap := List (Str × (Str × Nat))

/-- The map-building loop of `DiffYAML` (`for i, line := range lines`),
starting at index `i` with accumulator `m`: index each line with a
non-empty extractable key, later lines overwriting earlier ones. -/
def buildMapFrom (i : Nat) (lines : List Str) (m : DiffMap) : DiffMap :=
  match lines with
  | [] => m
  | l :: ls =>
    buildMapFrom (i + 1) ls
      (if extractKey l = [] then m else mapInsert m (extractKey l) (l, i))

/-- The per-side key map built by `DiffYAML` from a line sequence. -/
def buildMap (lines : List Str) : DiffMap :=
  buildMapFrom 0 lines []

/-- `contextLines := 2` in `DiffYAML`. -/
def contextLines : Nat := 2

/-- Whether a new-side map entry is a change: its key is absent from the
old map (added) or present with different line text (modified). -/
def changedEntry (oldMap : DiffMap) (e : Str × (Str × Nat)) : Bool :=
  match mapLookup oldMap e.1 with
  | some p => decide (p.1 ≠ e.2.1)
  | none => true

/-- `isChange[j]` of `DiffYAML`: some new-map entry sits at new-document
line `j` and is added or modified.  The index is an `Int` because the
windowing loop probes indices `i-2 … i+2`, which may be negative; a
negative index is never marked. -/
def isChangeAt (oldMap newMap : DiffMap) (j : Int) : Bool :=
  newMap.any (fun e => decide ((e.2.2 : Int) = j) && changedEntry oldMap e)

/-- The windowing test of `DiffYAML`: some change lies at an index `j`
with `i - contextLines ≤ j ≤ i + contextLines`. -/
def hasNearbyChange (oldMap newMap : DiffMap) (i : Nat) : Bool :=
  (List.range (2 * contextLines + 1)).any
    (fun d => isChangeAt oldMap newMap ((i : Int) - (contextLines : Int) + (d : Int)))

/-- The records emitted for new line `i` once the window test has passed:
keyless lines are context, a key found in the old map with different text
yields the old `removed` record then the new `added` record, a key absent
from the old map yields an `added` record, otherwise context. -/
def lineBlock (oldMap : DiffMap) (i : Nat) (newLine : Str) : List DiffLine :=
  let key := extractKey newLine
  if key = [] then [⟨"unchanged".data, newLine, i⟩]
  else
    match mapLookup oldMap key with
    | some oldData =>
      if oldData.1 ≠ newLine then
        [⟨"removed".data, oldData.1, oldData.2⟩, ⟨"added".data, newLine, i⟩]
      else [⟨"unchanged".data, newLine, i⟩]
    | none => [⟨"added".data, newLine, i⟩]

/-- The records the main pass of `DiffYAML` emits for new line `i`:
nothing when no change is within the context window, else `lineBlock`. -/
def lineRecords (oldMap newMap : DiffMap) (i : Nat) (newLine : Str) : List DiffLine :=
  if hasNearbyChange oldMap newMap i then lineBlock oldMap i newLine else []

/-- `range` with explicit indices: `enumFrom i [a, b, …] = [(i, a), (i+1, b), …]`. -/
def enumFrom (i : Nat) : List Str → List (Nat × Str)
  | [] => []
  | l :: ls => (i, l) :: enumFrom (i + 1) ls

/-- The main pass of `DiffYAML` (`for i, newLine := range newLines`). -/
def mainPass (oldMap newMap : DiffMap) (newLines : List Str) : List DiffLine :=
  (enumFrom 0 newLines).flatMap (fun p => lineRecords oldMap newMap p.1 p.2)

/-- The trailing pass of `DiffYAML`: a `removed` record for every old-map
entry whose key is absent from the new map.  Go collects these keys by
ranging over the old map (unspecified order) and then reads `oldMap[key]`
back; with unique keys this is the filter-and-map below, in insertion
order. -/
def removedTail (oldMap newMap : DiffMap) : List DiffLine :=
  (oldMap.filter (fun e => decide (mapLookup newMap e.1 = none))).map
    (fun e => ⟨"removed".data, e.2.1, e.2.2⟩)

/-- `DiffYAML` from `yaml_path.go`: split both texts into lines, index
the keyed lines of each side, then emit the windowed main pass over the
new document followed by the pure-removed records. -/
def DiffYAML (oldContent newContent : Str) : List DiffLine :=
  let oldLines := splitLines oldContent
  let newLines := splitLines newContent
  let oldMap := buildMap oldLines
  let newMap := buildMap newLines
  mainPass oldMap newMap newLines ++ removedTail oldMap newMap

/-! ### The path resolver (`GetYAMLPath`) -/

/-- One probe of the parent-search loop of `GetYAMLPath` at index `m`:
skip blank and comment lines; accept a line whose key is non-empty and
whose indent is below the target's, or equal to the search's target
indent (`currentIndent - 2`, clamped at zero, for list items, else the
target's own indent). -/
def checkParentLine (lines : List Str) (isListItem : Bool) (ci : Nat) (m : Nat) :
    Option (Nat × Nat × Str) :=
  let line := lines.getD m []
  let t := trimSpace line
  if t = [] ∨ hasPrefixChar t '#' = true then none
  else
    let indent := getIndentLevel line
    let ti := if isListItem then ci - 2 else ci
    let field := extractKey line
    if (indent < ci ∨ (indent = ti ∧ field ≠ [])) ∧ field ≠ [] then
      some (m, indent, field)
    else none

/-- The parent-search loop of `GetYAMLPath`, walking indices `m, m-1, …, 0`
and returning the first accepted line as (index, indent, key). -/
def findParentFrom (lines : List Str) (isListItem : Bool) (ci : Nat) : Nat → Option (Nat × Nat × Str)
  | 0 => checkParentLine lines isListItem ci 0
  | m + 1 =>
    match checkParentLine lines isListItem ci (m + 1) with
    | some x => some x
    | none => findParentFrom lines isListItem ci m

/-- The ancestor-collecting loop of `GetYAMLPath`, walking indices
`m, m-1, …, 0` with current indent `ci`: skip blank and comment lines;
a keyed line at strictly smaller indent contributes its key (and lowers
the current indent); stop after any content line at indent 0.  The result
is in top-to-bottom order (Go prepends while walking backward). -/
def buildPathFrom (lines : List Str) : Nat → Nat → List Str
  | ci, 0 =>
    let line := lines.getD 0 []
    let t := trimSpace line
    if t = [] || hasPrefixChar t '#' then []
    else
      let indent := getIndentLevel line
      if indent < ci ∧ extractKey line ≠ [] then [extractKey line] else []
  | ci, m + 1 =>
    let line := lines.getD (m + 1) []
    let t := trimSpace line
    if t = [] || hasPrefixChar t '#' then buildPathFrom lines ci m
    else
      let indent := getIndentLevel line
      let contrib := if indent < ci ∧ extractKey line ≠ [] then [extractKey line] else []
      let ci' := if indent < ci ∧ extractKey line ≠ [] then indent else ci
      if indent = 0 then contrib
      else buildPathFrom lines ci' m ++ contrib

/-- `GetYAMLPath` from `yaml_path.go`: reject out-of-range indices and
blank/comment targets; when the target line has no key of its own, adopt
the nearest acceptable preceding line as the target; then join the
backward-collected ancestor keys with the target's key using `.`. -/
def GetYAMLPath (lines : List Str) (lineNum : Int) : Str :=
  if lineNum < 0 ∨ (lines.length : Int) ≤ lineNum then []
  else
    let n := lineNum.toNat
    let currentLine := lines.getD n []
    let trimmedLine := trimSpace currentLine
    if trimmedLine = [] ∨ hasPrefixChar trimmedLine '#' = true then []
    else
      let ci := getIndentLevel currentLine
      let cf := extractKey currentLine
      if cf = [] then
        let isListItem := hasPrefixChar trimmedLine '-'
        match (if n = 0 then none else findParentFrom lines isListItem ci (n - 1)) with
        | none => []
        | some q =>
          let anc := if q.1 = 0 then [] else buildPathFrom lines q.2.1 (q.1 - 1)
          joinDots (anc ++ [q.2.2])
      else
        let anc := if n = 0 then [] else buildPathFrom lines ci (n - 1)
        joinDots (anc ++ [cf])

/-! ### The TTL cache (`internal/helm/cache.go`) -/

/-- Go struct `CacheEntry`: the cached text and the instant it was stored. -/
structure CacheEntry where
  values : Str
  timestamp : Int
  deriving DecidableEq, Repr

/-- Go struct `Cache`: the entry map and the fixed TTL.  The `sync.RWMutex`
is a concurrency artifact with no sequential semantics and is not modelled. -/
structure Cache where
  entries : List (Str × CacheEntry)
  ttl : Int
  deriving DecidableEq, Repr

/-- `NewCache`. -/
def NewCache (ttl : Int) : Cache :=
  ⟨[], ttl⟩

/-- `Cache.buildKey`: the chart name alone, or `name@version`. -/
def buildKey (chartName version : Str) : Str :=
  if version = [] then chartName else chartName ++ '@' :: version

/-- `Cache.Get`, state-passing: the method body reads the entry map and
performs no assignment, so every branch returns the receiver unchanged.
`now` stands for the instant at which `time.Since` is evaluated. -/
def Cache.get (c : Cache) (chartName version : Str) (now : Int) : (Str × Bool) × Cache :=
  let key := buildKey chartName version
  match mapLookup c.entries key with
  | none => (([], false), c)
  | some entry =>
    if now - entry.timestamp > c.ttl then (([], false), c)
    else ((entry.values, true), c)

/-- `Cache.Set`: overwrite the entry for the built key, stamping `now`. -/
def Cache.set (c : Cache) (chartName version values : Str) (now : Int) : Cache :=
  { c with entries := mapInsert c.entries (buildKey chartName version) ⟨values, now⟩ }

/-- `Cache.Clear`: drop all entries. -/
def Cache.clear (c : Cache) : Cache :=
  { c with entries := [] }

/-! ### Lemmas about the association-list map -/

theorem mapLookup_mapInsert_self {α : Type} (m : List (Str × α)) (k : Str) (v : α) :
    mapLookup (mapInsert m k v) k = some v := by
  induction m with
  | nil => simp [mapInsert, mapLookup]
  | cons e es ih =>
    by_cases h : e.1 = k
    · simp [mapInsert, mapLookup, h]
    · simp [mapInsert, mapLookup, h, ih]

theorem mapLookup_mapInsert_ne {α : Type} (m : List (Str × α)) (k k' : Str) (v : α)
    (h : k' ≠ k) : mapLookup (mapInsert m k v) k' = mapLookup m k' := by
  induction m with
  | nil =>
    simp only [mapInsert, mapLookup]
    rw [if_neg (fun hh => h hh.symm)]
  | cons e es ih =>
    by_cases he : e.1 = k
    · have : ¬ (k = k') := fun hh => h hh.symm
      simp [mapInsert, mapLookup, he, this]
    · by_cases he' : e.1 = k'
      · simp [mapInsert, mapLookup, he, he', h]
      · simp [mapInsert, mapLookup, he, he', ih]

theorem mem_mapInsert {α : Type} (m : List (Str × α)) (k : Str) (v : α)
    (e : Str × α) (he : e ∈ mapInsert m k v) : e ∈ m ∨ e = (k, v) := by
  induction m with
  | nil => simp [mapInsert] at he; right; exact he
  | cons e' es ih =>
    by_cases h : e'.1 = k
    · simp only [mapInsert, h, if_pos rfl] at he
      rcases List.mem_cons.mp he with h1 | h1
      · right; exact h1
      · left; exact List.mem_cons_of_mem _ h1
    · simp only [mapInsert, if_neg h] at he
      rcases List.mem_cons.mp he with h1 | h1
      · left; exact h1 ▸ List.mem_cons_self _ _
      · rcases ih h1 with h2 | h2
        · left; exact List.mem_cons_of_mem _ h2
        · right; exact h2

/-! ### Lemmas about `buildMap` -/

/-- The index of the last line of the list whose extractable key is `k`. -/
def lastIdxOf (k : Str) : List Str → Option Nat
  | [] => none
  | l :: ls =>
    match lastIdxOf k ls with
    | some j => some (j + 1)
    | none => if extractKey l = k then some 0 else none

theorem lastIdxOf_some (k : Str) :
    ∀ (ls : List Str) (j : Nat), lastIdxOf k ls = some j →
      j < ls.length ∧ extractKey (ls.getD j []) = k := by
  intro ls
  induction ls with
  | nil => intro j h; simp [lastIdxOf] at h
  | cons l ls ih =>
    intro j h
    simp only [lastIdxOf] at h
    rcases hrec : lastIdxOf k ls with _ | j'
    · rw [hrec] at h
      by_cases hl : extractKey l = k
      · simp [hl] at h
        subst h
        exact ⟨Nat.succ_pos _, hl⟩
      · simp [hl] at h
    · rw [hrec] at h
      simp at h
      subst h
      obtain ⟨h1, h2⟩ := ih j' hrec
      exact ⟨by simpa using Nat.succ_lt_succ h1, by simpa using h2⟩

theorem lastIdxOf_isSome_of_occ (k : Str) :
    ∀ (ls : List Str) (j : Nat), j < ls.length → extractKey (ls.getD j []) = k →
      (lastIdxOf k ls).isSome := by
  intro ls
  induction ls with
  | nil => intro j h; simp at h
  | cons l ls ih =>
    intro j hj hk
    simp only [lastIdxOf]
    rcases hrec : lastIdxOf k ls with _ | j'
    · match j with
      | 0 =>
        simp only [List.getD_cons_zero] at hk
        simp [hk]
      | j'' + 1 =>
        have := ih j'' (by simpa using Nat.lt_of_succ_lt_succ hj) (by simpa using hk)
        rw [hrec] at this
        simp at this
    · simp

theorem lastIdxOf_none_of_no_occ (k : Str) (ls : List Str)
    (h : ∀ j, j < ls.length → extractKey (ls.getD j []) ≠ k) :
    lastIdxOf k ls = none := by
  rcases hrec : lastIdxOf k ls with _ | j
  · rfl
  · obtain ⟨h1, h2⟩ := lastIdxOf_some k ls j hrec
    exact absurd h2 (h j h1)

theorem lastIdxOf_of_last (k : Str) :
    ∀ (ls : List Str) (j : Nat), j < ls.length → extractKey (ls.getD j []) = k →
      (∀ j', j < j' → j' < ls.length → extractKey (ls.getD j' []) ≠ k) →
      lastIdxOf k ls = some j := by
  intro ls
  induction ls with
  | nil => intro j h; simp at h
  | cons l ls ih =>
    intro j hj hk hlast
    simp only [lastIdxOf]
    match j with
    | 0 =>
      have hnone : lastIdxOf k ls = none := by
        apply lastIdxOf_none_of_no_occ
        intro d hd
        have := hlast (d + 1) (Nat.succ_pos _) (by simpa using Nat.succ_lt_succ hd)
        simpa using this
      rw [hnone]
      simp only [List.getD_cons_zero] at hk
      simp [hk]
    | j'' + 1 =>
      have hrec : lastIdxOf k ls = some j'' := by
        apply ih j'' (by simpa using Nat.lt_of_succ_lt_succ hj) (by simpa using hk)
        intro j' h1 h2
        have := hlast (j' + 1) (Nat.succ_lt_succ h1) (by simpa using Nat.succ_lt_succ h2)
        simpa using this
      rw [hrec]

theorem buildMapFrom_lookup (k : Str) (hk : k ≠ []) :
    ∀ (ls : List Str) (i : Nat) (m : DiffMap),
      mapLookup (buildMapFrom i ls m) k =
        match lastIdxOf k ls with
        | some j => some (ls.getD j [], i + j)
        | none => mapLookup m k := by
  intro ls
  induction ls with
  | nil => intro i m; simp [buildMapFrom, lastIdxOf]
  | cons l ls ih =>
    intro i m
    simp only [buildMapFrom]
    rw [ih]
    rcases hrec : lastIdxOf k ls with _ | j
    · simp only [lastIdxOf, hrec]
      by_cases hl : extractKey l = k
      · have hne : extractKey l ≠ [] := by rw [hl]; exact hk
        simp [hne, hl, hk, mapLookup_mapInsert_self]
      · by_cases hnil : extractKey l = []
        · simp [hnil, hl, hk]
        · simp [hnil, hl, mapLookup_mapInsert_ne _ _ _ _ (fun hh => hl hh.symm)]
    · simp only [lastIdxOf, hrec]
      simp only [List.getD_cons_succ]
      have : i + 1 + j = i + (j + 1) := by omega
      rw [this]

theorem buildMap_lookup_nil_key :
    ∀ (ls : List Str) (i : Nat) (m : DiffMap), mapLookup m [] = none →
      mapLookup (buildMapFrom i ls m) [] = none := by
  intro ls
  induction ls with
  | nil => intro i m h; simpa [buildMapFrom] using h
  | cons l ls ih =>
    intro i m h
    simp only [buildMapFrom]
    apply ih
    by_cases hnil : extractKey l = []
    · simpa [hnil] using h
    · rw [if_neg hnil, mapLookup_mapInsert_ne _ _ _ _ (fun hh => hnil hh.symm)]
      exact h

theorem buildMap_sound (ls : List Str) (k : Str) (l : Str) (n : Nat)
    (h : mapLookup (buildMap ls) k = some (l, n)) :
    k ≠ [] ∧ n < ls.length ∧ ls.getD n [] = l ∧ extractKey l = k := by
  by_cases hk : k = []
  · subst hk
    rw [buildMap] at h
    rw [buildMap_lookup_nil_key ls 0 [] rfl] at h
    exact absurd h (by simp)
  · rw [buildMap, buildMapFrom_lookup k hk] at h
    rcases hrec : lastIdxOf k ls with _ | j
    · rw [hrec] at h; simp [mapLookup] at h
    · rw [hrec] at h
      simp only [Option.some.injEq, Prod.mk.injEq] at h
      obtain ⟨h1, h2⟩ := h
      obtain ⟨hj1, hj2⟩ := lastIdxOf_some k ls j hrec
      refine ⟨hk, ?_, ?_, ?_⟩
      · omega
      · rw [← h2]; simpa using h1
      · rw [← h1]; exact hj2

theorem mapLookup_buildMap_of_occ (ls : List Str) (k : Str) (j : Nat)
    (hj : j < ls.length) (hk : extractKey (ls.getD j []) = k) (hne : k ≠ []) :
    mapLookup (buildMap ls) k ≠ none := by
  rw [buildMap, buildMapFrom_lookup k hne]
  rcases hrec : lastIdxOf k ls with _ | j'
  · have := lastIdxOf_isSome_of_occ k ls j hj hk
    rw [hrec] at this
    simp at this
  · simp

theorem mem_buildMapFrom :
    ∀ (ls : List Str) (i : Nat) (m : DiffMap) (e : Str × (Str × Nat)),
      e ∈ buildMapFrom i ls m → e ∈ m ∨ (extractKey e.2.1 = e.1 ∧ e.1 ≠ []) := by
  intro ls
  induction ls with
  | nil => intro i m e he; left; simpa [buildMapFrom] using he
  | cons l ls ih =>
    intro i m e he
    simp only [buildMapFrom] at he
    rcases ih _ _ _ he with h1 | h1
    · by_cases hnil : extractKey l = []
      · rw [if_pos hnil] at h1; left; exact h1
      · rw [if_neg hnil] at h1
        rcases mem_mapInsert _ _ _ _ h1 with h2 | h2
        · left; exact h2
        · right; subst h2; exact ⟨rfl, hnil⟩
    · right; exact h1

theorem mem_buildMap (ls : List Str) (e : Str × (Str × Nat)) (he : e ∈ buildMap ls) :
    extractKey e.2.1 = e.1 ∧ e.1 ≠ [] := by
  rcases mem_buildMapFrom ls 0 [] e he with h | h
  · exact absurd h (by simp)
  · exact h

/-! ### Lemmas about the main pass of `DiffYAML` -/

theorem mem_enumFrom :
    ∀ (ls : List Str) (i : Nat) (p : Nat × Str), p ∈ enumFrom i ls →
      i ≤ p.1 ∧ p.1 < i + ls.length ∧ ls.getD (p.1 - i) [] = p.2 := by
  intro ls
  induction ls with
  | nil => intro i p hp; simp [enumFrom] at hp
  | cons l ls ih =>
    intro i p hp
    simp only [enumFrom, List.mem_cons] at hp
    rcases hp with hp | hp
    · subst hp
      refine ⟨le_refl _, by simp, by simp⟩
    · obtain ⟨h1, h2, h3⟩ := ih (i + 1) p hp
      refine ⟨by omega, by simp; omega, ?_⟩
      have hd : p.1 - i = (p.1 - (i + 1)) + 1 := by omega
      rw [hd, List.getD_cons_succ]
      exact h3

theorem enumFrom_split :
    ∀ (ls : List Str) (i j : Nat), j < ls.length →
      enumFrom i ls =
        enumFrom i (ls.take j) ++ (i + j, ls.getD j []) :: enumFrom (i + j + 1) (ls.drop (j + 1)) := by
  intro ls
  induction ls with
  | nil => intro i j hj; simp at hj
  | cons l ls ih =>
    intro i j hj
    match j with
    | 0 => simp [enumFrom]
    | j' + 1 =>
      have hj' : j' < ls.length := by simpa using Nat.lt_of_succ_lt_succ hj
      simp only [List.take_succ_cons, List.getD_cons_succ, List.drop_succ_cons, enumFrom,
        List.cons_append]
      have h1 : i + (j' + 1) = i + 1 + j' := by omega
      rw [h1, ih (i + 1) j' hj']

theorem mainPass_decomp (om nm : DiffMap) (ls : List Str) (i : Nat) (hi : i < ls.length) :
    mainPass om nm ls =
      (enumFrom 0 (ls.take i)).flatMap (fun p => lineRecords om nm p.1 p.2)
        ++ lineRecords om nm i (ls.getD i [])
        ++ (enumFrom (i + 1) (ls.drop (i + 1))).flatMap (fun p => lineRecords om nm p.1 p.2) := by
  unfold mainPass
  rw [enumFrom_split ls 0 i hi]
  simp [List.flatMap_append, List.flatMap_cons]

theorem mem_mainPass (om nm : DiffMap) (ls : List Str) (r : DiffLine)
    (hr : r ∈ mainPass om nm ls) :
    ∃ i, i < ls.length ∧ hasNearbyChange om nm i = true ∧ r ∈ lineBlock om i (ls.getD i []) := by
  unfold mainPass at hr
  rw [List.mem_flatMap] at hr
  obtain ⟨p, hp, hrp⟩ := hr
  obtain ⟨h1, h2, h3⟩ := mem_enumFrom ls 0 p hp
  unfold lineRecords at hrp
  by_cases hn : hasNearbyChange om nm p.1 = true
  · rw [if_pos hn] at hrp
    refine ⟨p.1, by omega, hn, ?_⟩
    rw [show p.1 - 0 = p.1 by omega] at h3
    rw [h3]
    exact hrp
  · rw [if_neg hn] at hrp
    exact absurd hrp (List.not_mem_nil r)

theorem mem_lineBlock (om : DiffMap) (i : Nat) (l : Str) (r : DiffLine)
    (hr : r ∈ lineBlock om i l) :
    r.type = "unchanged".data ∨
      (r.type = "added".data ∧ r.line = l ∧ extractKey l ≠ []) ∨
      (r.type = "removed".data ∧ extractKey l ≠ [] ∧
        ∃ q, mapLookup om (extractKey l) = some q ∧ r.line = q.1) := by
  unfold lineBlock at hr
  by_cases hk : extractKey l = []
  · simp only [hk, if_pos rfl] at hr
    simp at hr
    left
    rw [hr]
  · simp only [if_neg hk] at hr
    split at hr
    next q hq =>
      by_cases hd : q.1 ≠ l
      · rw [if_pos hd] at hr
        rcases List.mem_cons.mp hr with h | h
        · right; right
          rw [h]
          exact ⟨rfl, hk, q, hq, rfl⟩
        · simp at h
          right; left
          rw [h]
          exact ⟨rfl, rfl, hk⟩
      · rw [if_neg hd] at hr
        simp at hr
        left
        rw [hr]
    next hq =>
      simp at hr
      right; left
      rw [hr]
      exact ⟨rfl, rfl, hk⟩

theorem lineBlock_ne_nil (om : DiffMap) (i : Nat) (l : Str) : lineBlock om i l ≠ [] := by
  unfold lineBlock
  by_cases hk : extractKey l = []
  · simp [hk]
  · simp only [if_neg hk]
    split
    · split <;> simp
    · simp

/-- Every record of `DiffYAML` is tagged `unchanged`, `added` or `removed`,
and any record not tagged `unchanged` carries a line with a non-empty
extractable key. -/
theorem diffYAML_shape (oldC newC : Str) (r : DiffLine) (hr : r ∈ DiffYAML oldC newC) :
    (r.type = "unchanged".data ∨ r.type = "added".data ∨ r.type = "removed".data) ∧
      (r.type ≠ "unchanged".data → extractKey r.line ≠ []) := by
  unfold DiffYAML at hr
  rw [List.mem_append] at hr
  rcases hr with hr | hr
  · obtain ⟨i, hi, hn, hb⟩ := mem_mainPass _ _ _ r hr
    rcases mem_lineBlock _ _ _ r hb with h | h | h
    · exact ⟨Or.inl h, fun hne => absurd h hne⟩
    · obtain ⟨h1, h2, h3⟩ := h
      exact ⟨Or.inr (Or.inl h1), fun _ => by rw [h2]; exact h3⟩
    · obtain ⟨h1, h2, q, hq, h3⟩ := h
      obtain ⟨_, _, _, hkey⟩ := buildMap_sound _ _ _ _ hq
      refine ⟨Or.inr (Or.inr h1), fun _ => ?_⟩
      rw [h3, hkey]
      exact h2
  · unfold removedTail at hr
    rw [List.mem_map] at hr
    obtain ⟨e, he, hre⟩ := hr
    have hmem : e ∈ buildMap (splitLines oldC) := List.mem_of_mem_filter he
    obtain ⟨hk1, hk2⟩ := mem_buildMap _ e hmem
    refine ⟨Or.inr (Or.inr (by rw [← hre])), fun _ => ?_⟩
    rw [← hre]
    simpa [hk1] using hk2

/-- The window test succeeds exactly when some (possibly negative) index
within `± contextLines` of `i` carries a change. -/
theorem hasNearbyChange_iff (om nm : DiffMap) (i : Nat) :
    hasNearbyChange om nm i = true ↔
      ∃ j : Int, (i : Int) - 2 ≤ j ∧ j ≤ (i : Int) + 2 ∧ isChangeAt om nm j = true := by
  unfold hasNearbyChange contextLines
  rw [List.any_eq_true]
  constructor
  · rintro ⟨d, hd, hda⟩
    rw [List.mem_range] at hd
    refine ⟨(i : Int) - 2 + (d : Int), by omega, by omega, by simpa using hda⟩
  · rintro ⟨j, h1, h2, hj⟩
    refine ⟨(j - ((i : Int) - 2)).toNat, ?_, ?_⟩
    · rw [List.mem_range]; omega
    · have h3 : (((j - ((i : Int) - 2)).toNat : Int)) = j - ((i : Int) - 2) :=
        Int.toNat_of_nonneg (by omega)
      rw [h3]
      simp only [Nat.cast_ofNat]
      have h4 : (i : Int) - 2 + (j - ((i : Int) - 2)) = j := by omega
      rw [h4]
      exact hj

/-! ### Lemmas about the cache -/

theorem cache_get_of_fresh (c : Cache) (n v t : Str) (t0 now : Int)
    (h : now - t0 ≤ c.ttl) :
    ((Cache.set c n v t t0).get n v now).1 = (t, true) := by
  unfold Cache.get Cache.set
  simp only [mapLookup_mapInsert_self]
  rw [if_neg (by simpa using h)]

theorem cache_get_of_expired (c : Cache) (n v t : Str) (t0 now : Int)
    (h : c.ttl < now - t0) :
    ((Cache.set c n v t t0).get n v now).1 = ([], false) := by
  unfold Cache.get Cache.set
  simp only [mapLookup_mapInsert_self]
  rw [if_pos (by simpa using h)]

/-! ### Lemmas about the parent search of `GetYAMLPath` -/

theorem hasPrefixChar_ne_nil (s : Str) (c : Char) (h : hasPrefixChar s c = true) : s ≠ [] := by
  cases s with
  | nil => simp [hasPrefixChar] at h
  | cons a s => simp

theorem hasPrefixChar_ne (s : Str) (c c' : Char) (h : hasPrefixChar s c = true) (hcc : c ≠ c') :
    hasPrefixChar s c' = false := by
  cases s with
  | nil => simp [hasPrefixChar] at h
  | cons a s =>
    simp only [hasPrefixChar, decide_eq_true_eq] at h
    simp only [hasPrefixChar, decide_eq_false_iff_not]
    rw [h]
    exact hcc

/-- The lines accepted by the parent search of `GetYAMLPath` when the
target is a list item at indent `ci`: a non-blank, non-comment line with
an extractable key whose indent is strictly below `ci` or equal to
`ci - 2` (clamped at zero). -/
def parentCond (lines : List Str) (ci : Nat) (j : Nat) : Prop :=
  trimSpace (lines.getD j []) ≠ [] ∧
  hasPrefixChar (trimSpace (lines.getD j [])) '#' = false ∧
  extractKey (lines.getD j []) ≠ [] ∧
  (getIndentLevel (lines.getD j []) < ci ∨ getIndentLevel (lines.getD j []) = ci - 2)

instance (lines : List Str) (ci j : Nat) : Decidable (parentCond lines ci j) := by
  unfold parentCond
  infer_instance

theorem checkParentLine_eq (lines : List Str) (ci j : Nat) :
    checkParentLine lines true ci j =
      if parentCond lines ci j then
        some (j, getIndentLevel (lines.getD j []), extractKey (lines.getD j []))
      else none := by
  by_cases h1 : trimSpace (lines.getD j []) = [] ∨ hasPrefixChar (trimSpace (lines.getD j [])) '#' = true
  · have hnp : ¬ parentCond lines ci j := by
      rintro ⟨c1, c2, _, _⟩
      rcases h1 with h1 | h1
      · exact c1 h1
      · rw [c2] at h1; exact Bool.false_ne_true h1
    rw [if_neg hnp]
    simp only [checkParentLine]
    rw [if_pos h1]
  · push_neg at h1
    have hblank : ¬ (trimSpace (lines.getD j []) = [] ∨
        hasPrefixChar (trimSpace (lines.getD j [])) '#' = true) := by
      rintro (h | h)
      · exact h1.1 h
      · exact h1.2 h
    by_cases h2 : (getIndentLevel (lines.getD j []) < ci ∨
        (getIndentLevel (lines.getD j []) = ci - 2 ∧ extractKey (lines.getD j []) ≠ [])) ∧
        extractKey (lines.getD j []) ≠ []
    · have hp : parentCond lines ci j := by
        refine ⟨h1.1, Bool.not_eq_true _ ▸ h1.2, h2.2, ?_⟩
        rcases h2.1 with h | h
        · exact Or.inl h
        · exact Or.inr h.1
      rw [if_pos hp]
      simp only [checkParentLine]
      rw [if_neg hblank]
      simp only [if_true]
      rw [if_pos h2]
    · have hnp : ¬ parentCond lines ci j := by
        rintro ⟨c1, c2, c3, c4⟩
        apply h2
        refine ⟨?_, c3⟩
        rcases c4 with h | h
        · exact Or.inl h
        · exact Or.inr ⟨h, c3⟩
      rw [if_neg hnp]
      simp only [checkParentLine]
      rw [if_neg hblank]
      simp only [if_true]
      rw [if_neg h2]

theorem findParentFrom_eq_none_iff (lines : List Str) (ci : Nat) :
    ∀ m, findParentFrom lines true ci m = none ↔ ∀ j, j ≤ m → ¬ parentCond lines ci j := by
  intro m
  induction m with
  | zero =>
    rw [findParentFrom, checkParentLine_eq]
    by_cases h : parentCond lines ci 0
    · simp only [if_pos h]
      constructor
      · intro hc; exact absurd hc (by simp)
      · intro hall; exact absurd h (hall 0 le_rfl)
    · simp only [if_neg h]
      constructor
      · intro _ j hj
        have : j = 0 := by omega
        rw [this]; exact h
      · intro _; trivial
  | succ m ih =>
    rw [findParentFrom, checkParentLine_eq]
    by_cases h : parentCond lines ci (m + 1)
    · simp only [if_pos h]
      constructor
      · intro hc; exact absurd hc (by simp)
      · intro hall; exact absurd h (hall (m + 1) le_rfl)
    · simp only [if_neg h]
      rw [ih]
      constructor
      · intro hall j hj
        rcases Nat.lt_or_ge j (m + 1) with hlt | hge
        · exact hall j (by omega)
        · have : j = m + 1 := by omega
          rw [this]; exact h
      · intro hall j hj
        exact hall j (by omega)

theorem findParentFrom_nearest (lines : List Str) (ci : Nat) :
    ∀ m j, j ≤ m → parentCond lines ci j →
      (∀ j', j < j' → j' ≤ m → ¬ parentCond lines ci j') →
      findParentFrom lines true ci m =
        some (j, getIndentLevel (lines.getD j []), extractKey (lines.getD j [])) := by
  intro m
  induction m with
  | zero =>
    intro j hj hc _
    have : j = 0 := by omega
    subst this
    rw [findParentFrom, checkParentLine_eq, if_pos hc]
  | succ m ih =>
    intro j hj hc hlast
    by_cases hjm : j = m + 1
    · subst hjm
      rw [findParentFrom, checkParentLine_eq, if_pos hc]
    · have hj' : j ≤ m := by omega
      have hnot : ¬ parentCond lines ci (m + 1) := hlast (m + 1) (by omega) le_rfl
      rw [findParentFrom, checkParentLine_eq, if_neg hnot]
      exact ih j hj' hc (fun j' h1 h2 => hlast j' h1 (by omega))

/-! ### Claim theorems: path resolver -/

/-- C6: `GetYAMLPath` is total and returns the empty string for every
degenerate target: a negative index, an index at or past the end of the
line sequence, or an index whose line trims to blank or to a `#`-prefixed
comment. -/
theorem claim6_degenerate (lines : List Str) (lineNum : Int)
    (h : lineNum < 0 ∨ (lines.length : Int) ≤ lineNum ∨
      trimSpace (lines.getD lineNum.toNat []) = [] ∨
      hasPrefixChar (trimSpace (lines.getD lineNum.toNat [])) '#' = true) :
    GetYAMLPath lines lineNum = [] := by
  by_cases h0 : lineNum < 0 ∨ (lines.length : Int) ≤ lineNum
  · simp only [GetYAMLPath]
    rw [if_pos h0]
  · have h1 : trimSpace (lines.getD lineNum.toNat []) = [] ∨
        hasPrefixChar (trimSpace (lines.getD lineNum.toNat [])) '#' = true := by
      rcases h with h | h | h | h
      · exact absurd (Or.inl h) h0
      · exact absurd (Or.inr h) h0
      · exact Or.inl h
      · exact Or.inr h
    simp only [GetYAMLPath]
    rw [if_neg h0, if_pos h1]

/-- Witness for C6: a negative index, a blank line and a comment line all
resolve to the empty path. -/
theorem claim6_witness :
    GetYAMLPath ["a: 1".data] (-1) = [] ∧
    GetYAMLPath ["a: 1".data] 7 = [] ∧
    GetYAMLPath ["app:".data, "   ".data] 1 = [] ∧
    GetYAMLPath ["app:".data, "  # c".data] 1 = [] :=
  ⟨claim6_degenerate _ _ (Or.inl (by decide)),
   claim6_degenerate _ _ (Or.inr (Or.inl (by decide))),
   claim6_degenerate _ _ (Or.inr (Or.inr (Or.inl (by decide)))),
   claim6_degenerate _ _ (Or.inr (Or.inr (Or.inr (by decide))))⟩

/-- C7: the spec's concrete example: the ancestor walk joins `app` with
the target key `replicas` into `app.replicas`. -/
theorem claim7_concrete :
    GetYAMLPath ["app:".data, "  name: x".data, "  replicas: 3".data] 2 =
      "app.replicas".data := by
  decide

/-- C2, counterexample: for the list item `"    - foo"` (indent 4) the only
preceding line sits at indent 0, not at `4 - 2 = 2`, so under the claim the
result should be `""`; the code accepts any smaller indent and returns
`"a"`. -/
theorem claim2_counterexample :
    getIndentLevel ("a: 1".data) = 0 ∧
    getIndentLevel ("    - foo".data) = 4 ∧
    hasPrefixChar (trimSpace "    - foo".data) '-' = true ∧
    extractKey "    - foo".data = [] ∧
    GetYAMLPath ["a: 1".data, "    - foo".data] 1 = "a".data ∧
    "a".data ≠ ([] : Str) := by
  decide

/-- C2, amended: for a list-item target with no extractable key, the
deepest path segment comes from the nearest preceding non-blank,
non-comment keyed line whose indent is strictly below the target's or
equals the target's indent minus 2 (clamped at zero); when no preceding
line qualifies, the result is the empty string. -/
theorem claim2_amended (lines : List Str) (i : Nat) (hi : i < lines.length)
    (hli : hasPrefixChar (trimSpace (lines.getD i [])) '-' = true)
    (hnokey : extractKey (lines.getD i []) = []) :
    ((∀ j, j < i → ¬ parentCond lines (getIndentLevel (lines.getD i [])) j) →
        GetYAMLPath lines (i : Int) = []) ∧
    (∀ j, j < i → parentCond lines (getIndentLevel (lines.getD i [])) j →
      (∀ j', j < j' → j' < i → ¬ parentCond lines (getIndentLevel (lines.getD i [])) j') →
      ∃ anc, GetYAMLPath lines (i : Int) =
        joinDots (anc ++ [extractKey (lines.getD j [])])) := by
  have ht : trimSpace (lines.getD i []) ≠ [] := hasPrefixChar_ne_nil _ _ hli
  have hcm : hasPrefixChar (trimSpace (lines.getD i [])) '#' = false :=
    hasPrefixChar_ne _ _ _ hli (by decide)
  have hcond : ¬ ((i : Int) < 0 ∨ (lines.length : Int) ≤ (i : Int)) := by omega
  have hstep : GetYAMLPath lines (i : Int) =
      (match (if i = 0 then none
          else findParentFrom lines true (getIndentLevel (lines.getD i [])) (i - 1)) with
        | none => []
        | some q =>
          joinDots ((if q.1 = 0 then [] else buildPathFrom lines q.2.1 (q.1 - 1)) ++ [q.2.2])) := by
    simp only [GetYAMLPath]
    rw [if_neg hcond]
    simp only [Int.toNat_natCast]
    rw [if_neg (by
      rintro (h | h)
      · exact ht h
      · rw [hcm] at h; exact Bool.false_ne_true h)]
    rw [if_pos hnokey, hli]
  constructor
  · intro hnone
    rw [hstep]
    cases i with
    | zero => rfl
    | succ m =>
      rw [if_neg (Nat.succ_ne_zero m)]
      simp only [Nat.add_sub_cancel]
      rw [(findParentFrom_eq_none_iff lines _ m).mpr (fun j hj => hnone j (by omega))]
  · intro j hj hc hlast
    rw [hstep]
    cases i with
    | zero => omega
    | succ m =>
      rw [if_neg (Nat.succ_ne_zero m)]
      simp only [Nat.add_sub_cancel]
      rw [findParentFrom_nearest lines _ m j (by omega) hc
        (fun j' h1 h2 => hlast j' h1 (by omega))]
      exact ⟨_, rfl⟩

/-- Witness for C2 (amended): the list item `"  - x"` resolves through the
parent `"a: 1"` at indent 0 (strictly below 2), so the deepest segment of
the result is `a`. -/
theorem claim2_amended_witness :
    ∃ anc, GetYAMLPath ["a: 1".data, "  - x".data] ((1 : Nat) : Int) =
      joinDots (anc ++ [extractKey (["a: 1".data, "  - x".data].getD 0 [])]) :=
  (claim2_amended ["a: 1".data, "  - x".data] 1 (by decide) (by decide) (by decide)).2
    0 (by decide) (by decide) (fun j' h1 h2 => absurd h2 (by omega))

/-! ### Claim theorems: cache -/

/-- C5: a `Get` after a `Set` hits with the stored text while the elapsed
time is at most the TTL, and misses once the elapsed time exceeds it. -/
theorem claim5_cache_ttl (c : Cache) (n v t : Str) (t0 now now2 : Int)
    (h1 : now - t0 ≤ c.ttl) (h2 : c.ttl < now2 - t0) :
    ((Cache.set c n v t t0).get n v now).1 = (t, true) ∧
    (((Cache.set c n v t t0).get n v now2).1).2 = false := by
  constructor
  · exact cache_get_of_fresh c n v t t0 now h1
  · rw [cache_get_of_expired c n v t t0 now2 h2]

/-- Witness for C5: with TTL 10 and a `Set` at instant 0, a `Get` at
instant 5 hits and a `Get` at instant 11 misses. -/
theorem claim5_witness :
    ((Cache.set (NewCache 10) "a".data [] "x".data 0).get "a".data [] 5).1 =
      ("x".data, true) ∧
    (((Cache.set (NewCache 10) "a".data [] "x".data 0).get "a".data [] 11).1).2 = false :=
  claim5_cache_ttl (NewCache 10) "a".data [] "x".data 0 5 11 (by decide) (by decide)

/-- C9: `Get` never mutates the store: the post-state equals the
pre-state, so the entry map (expired entries included) and the TTL are
untouched; only `Set` and `Clear` produce a different state. -/
theorem claim9_get_no_mutation (c : Cache) (n v : Str) (now : Int) :
    ((Cache.get c n v now).2).entries = c.entries ∧
    ((Cache.get c n v now).2).ttl = c.ttl ∧
    (Cache.get c n v now).2 = c := by
  have h : (Cache.get c n v now).2 = c := by
    simp only [Cache.get]
    split
    · rfl
    · split <;> rfl
  rw [h]
  exact ⟨rfl, rfl, rfl⟩

/-! ### Claim theorems: differ -/

theorem lineBlock_modified (om : DiffMap) (i : Nat) (l : Str) (q : Str × Nat)
    (hk : extractKey l ≠ []) (hq : mapLookup om (extractKey l) = some q) (hd : q.1 ≠ l) :
    lineBlock om i l = [⟨"removed".data, q.1, q.2⟩, ⟨"added".data, l, i⟩] := by
  simp [lineBlock, hk, hq, hd]

theorem mainPass_removed_in_new (oldLines newLines : List Str) (r : DiffLine)
    (hr : r ∈ mainPass (buildMap oldLines) (buildMap newLines) newLines)
    (hrem : r.type = "removed".data) :
    mapLookup (buildMap newLines) (extractKey r.line) ≠ none := by
  obtain ⟨i, hi, hn, hb⟩ := mem_mainPass _ _ _ r hr
  rcases mem_lineBlock _ _ _ r hb with h | h | h
  · rw [hrem] at h; exact absurd h (by decide)
  · obtain ⟨h1, _, _⟩ := h
    rw [hrem] at h1; exact absurd h1 (by decide)
  · obtain ⟨h1, hkne, q, hq, hline⟩ := h
    obtain ⟨-, -, -, hqkey⟩ := buildMap_sound _ _ _ _ hq
    rw [hline, hqkey]
    exact mapLookup_buildMap_of_occ newLines _ i hi rfl hkne

/-- C1, counterexample: the line `"- a: 1"` is a list item (its trimmed
content starts with `-`), yet `DiffYAML` indexes it under the key `"- a"`
and reports it as an `added` record, not merely as unchanged context. -/
theorem claim1_counterexample :
    hasPrefixChar (trimSpace "- a: 1".data) '-' = true ∧
    DiffYAML "x: 1".data "- a: 1".data =
      [⟨"added".data, "- a: 1".data, 0⟩, ⟨"removed".data, "x: 1".data, 0⟩] := by
  decide

/-- C1, amended: only lines with a non-empty extractable key (a `:` at
positive index in the trimmed text) are indexed in the per-side key maps,
so every record whose line has no extractable key — blank lines always,
and list items, comments and continuations exactly when they contain no
such `:` — is tagged `unchanged`; `added`/`removed` records only ever
carry keyed lines. -/
theorem claim1_amended (oldC newC : Str) (r : DiffLine)
    (hr : r ∈ DiffYAML oldC newC) (hkey : extractKey r.line = []) :
    r.type = "unchanged".data := by
  have hs := diffYAML_shape oldC newC r hr
  by_contra hne
  exact hs.2 hne hkey

/-- Witness for C1 (amended): the trailing blank line of the new document
appears in the diff of `"a: 1\n"` against `"a: 2\n"` and is tagged
`unchanged`. -/
theorem claim1_amended_witness :
    (⟨"unchanged".data, [], 1⟩ : DiffLine) ∈ DiffYAML "a: 1\n".data "a: 2\n".data ∧
    (⟨"unchanged".data, ([] : Str), 1⟩ : DiffLine).type = "unchanged".data :=
  ⟨by decide, claim1_amended "a: 1\n".data "a: 2\n".data _ (by decide) (by decide)⟩

/-- C3: a key present in both maps with differing line text whose new line
is kept produces a `removed` record carrying the old line immediately
followed by an `added` record carrying the new line, and no record of the
diff is ever tagged `modified`. -/
theorem claim3_modified_adjacent (oldC newC : Str) (k oldL newL : Str) (oldN newN : Nat)
    (hk : k ≠ [])
    (hold : mapLookup (buildMap (splitLines oldC)) k = some (oldL, oldN))
    (hnew : mapLookup (buildMap (splitLines newC)) k = some (newL, newN))
    (hdiff : oldL ≠ newL)
    (hkept : hasNearbyChange (buildMap (splitLines oldC)) (buildMap (splitLines newC)) newN
      = true) :
    (∃ pre post, DiffYAML oldC newC =
      pre ++ ⟨"removed".data, oldL, oldN⟩ :: ⟨"added".data, newL, newN⟩ :: post) ∧
    (∀ r ∈ DiffYAML oldC newC, r.type ≠ "modified".data) := by
  obtain ⟨-, hlen, hget, hkey⟩ := buildMap_sound _ _ _ _ hnew
  constructor
  · have hD : DiffYAML oldC newC =
        mainPass (buildMap (splitLines oldC)) (buildMap (splitLines newC)) (splitLines newC) ++
          removedTail (buildMap (splitLines oldC)) (buildMap (splitLines newC)) := rfl
    have hdec := mainPass_decomp (buildMap (splitLines oldC)) (buildMap (splitLines newC))
      (splitLines newC) newN hlen
    have hblock : lineRecords (buildMap (splitLines oldC)) (buildMap (splitLines newC)) newN
        ((splitLines newC).getD newN []) =
        [⟨"removed".data, oldL, oldN⟩, ⟨"added".data, newL, newN⟩] := by
      unfold lineRecords
      rw [if_pos hkept, hget]
      exact lineBlock_modified _ _ _ (oldL, oldN) (by rw [hkey]; exact hk)
        (by rw [hkey]; exact hold) hdiff
    refine ⟨(enumFrom 0 ((splitLines newC).take newN)).flatMap
        (fun p => lineRecords (buildMap (splitLines oldC)) (buildMap (splitLines newC)) p.1 p.2),
      ((enumFrom (newN + 1) ((splitLines newC).drop (newN + 1))).flatMap
        (fun p => lineRecords (buildMap (splitLines oldC)) (buildMap (splitLines newC)) p.1 p.2))
        ++ removedTail (buildMap (splitLines oldC)) (buildMap (splitLines newC)), ?_⟩
    rw [hD, hdec, hblock]
    simp [List.append_assoc]
  · intro r hr
    have hs := diffYAML_shape oldC newC r hr
    rcases hs.1 with h | h | h <;> rw [h] <;> decide

/-- Witness for C3: the spec's own example, old `"a: 1\nb: 2\n"` against
new `"a: 1\nb: 3\n"`. -/
theorem claim3_witness :
    (∃ pre post, DiffYAML "a: 1\nb: 2\n".data "a: 1\nb: 3\n".data =
      pre ++ ⟨"removed".data, "b: 2".data, 1⟩ :: ⟨"added".data, "b: 3".data, 1⟩ :: post) ∧
    (∀ r ∈ DiffYAML "a: 1\nb: 2\n".data "a: 1\nb: 3\n".data, r.type ≠ "modified".data) :=
  claim3_modified_adjacent "a: 1\nb: 2\n".data "a: 1\nb: 3\n".data "b".data
    "b: 2".data "b: 3".data 1 1 (by decide) (by decide) (by decide) (by decide) (by decide)

/-- C4: new-document line `i` contributes its records to the output, and
that contribution is non-empty exactly when some change (an added or
modified key, marked at its new-document line index) lies within 2 raw
line indices of `i`. -/
theorem claim4_window (oldC newC : Str) (i : Nat) (hi : i < (splitLines newC).length) :
    (∃ pre post, DiffYAML oldC newC =
      pre ++ lineRecords (buildMap (splitLines oldC)) (buildMap (splitLines newC)) i
        ((splitLines newC).getD i []) ++ post) ∧
    (lineRecords (buildMap (splitLines oldC)) (buildMap (splitLines newC)) i
        ((splitLines newC).getD i []) ≠ [] ↔
      ∃ j : Int, (i : Int) - 2 ≤ j ∧ j ≤ (i : Int) + 2 ∧
        isChangeAt (buildMap (splitLines oldC)) (buildMap (splitLines newC)) j = true) := by
  constructor
  · have hD : DiffYAML oldC newC =
        mainPass (buildMap (splitLines oldC)) (buildMap (splitLines newC)) (splitLines newC) ++
          removedTail (buildMap (splitLines oldC)) (buildMap (splitLines newC)) := rfl
    have hdec := mainPass_decomp (buildMap (splitLines oldC)) (buildMap (splitLines newC))
      (splitLines newC) i hi
    refine ⟨(enumFrom 0 ((splitLines newC).take i)).flatMap
        (fun p => lineRecords (buildMap (splitLines oldC)) (buildMap (splitLines newC)) p.1 p.2),
      ((enumFrom (i + 1) ((splitLines newC).drop (i + 1))).flatMap
        (fun p => lineRecords (buildMap (splitLines oldC)) (buildMap (splitLines newC)) p.1 p.2))
        ++ removedTail (buildMap (splitLines oldC)) (buildMap (splitLines newC)), ?_⟩
    rw [hD, hdec]
    simp [List.append_assoc]
  · rw [← hasNearbyChange_iff]
    unfold lineRecords
    by_cases hn : hasNearbyChange (buildMap (splitLines oldC)) (buildMap (splitLines newC)) i
      = true
    · rw [if_pos hn]
      constructor
      · intro _; exact hn
      · intro _; exact lineBlock_ne_nil _ _ _
    · rw [if_neg hn]
      constructor
      · intro hne; exact absurd rfl hne
      · intro hh; exact absurd hh hn

/-- Witness for C4: in the diff of `"a: 1"` against `"a: 2"`, line 0 of
the new document is modified, so its contribution is non-empty and a
change lies within the window of line 0. -/
theorem claim4_witness :
    (∃ pre post, DiffYAML "a: 1".data "a: 2".data =
      pre ++ lineRecords (buildMap (splitLines "a: 1".data)) (buildMap (splitLines "a: 2".data)) 0
        ((splitLines "a: 2".data).getD 0 []) ++ post) ∧
    (lineRecords (buildMap (splitLines "a: 1".data)) (buildMap (splitLines "a: 2".data)) 0
        ((splitLines "a: 2".data).getD 0 []) ≠ [] ↔
      ∃ j : Int, (0 : Int) - 2 ≤ j ∧ j ≤ (0 : Int) + 2 ∧
        isChangeAt (buildMap (splitLines "a: 1".data)) (buildMap (splitLines "a: 2".data)) j
          = true) := by
  have h := claim4_window "a: 1".data "a: 2".data 0 (by decide)
  simpa using h

/-- C8: every `removed` record whose key exists only in the old-side map
sits at a position past every record of the main new-document pass: the
diff is exactly the main pass followed by the pure-removed tail, and a
pure-removed record can only sit in the tail. -/
theorem claim8_removed_after_main (oldC newC : Str) (p : Nat)
    (hp : p < (DiffYAML oldC newC).length)
    (hrem : ((DiffYAML oldC newC).getD p ⟨[], [], 0⟩).type = "removed".data)
    (hpure : mapLookup (buildMap (splitLines newC))
      (extractKey (((DiffYAML oldC newC).getD p ⟨[], [], 0⟩).line)) = none) :
    (mainPass (buildMap (splitLines oldC)) (buildMap (splitLines newC))
      (splitLines newC)).length ≤ p ∧
    DiffYAML oldC newC =
      mainPass (buildMap (splitLines oldC)) (buildMap (splitLines newC)) (splitLines newC) ++
        removedTail (buildMap (splitLines oldC)) (buildMap (splitLines newC)) := by
  have hD : DiffYAML oldC newC =
      mainPass (buildMap (splitLines oldC)) (buildMap (splitLines newC)) (splitLines newC) ++
        removedTail (buildMap (splitLines oldC)) (buildMap (splitLines newC)) := rfl
  refine ⟨?_, hD⟩
  by_contra hlt
  push_neg at hlt
  have hget : (DiffYAML oldC newC).getD p ⟨[], [], 0⟩ =
      (mainPass (buildMap (splitLines oldC)) (buildMap (splitLines newC))
        (splitLines newC)).getD p ⟨[], [], 0⟩ := by
    rw [hD]
    exact List.getD_append _ _ _ _ hlt
  have hmem : (mainPass (buildMap (splitLines oldC)) (buildMap (splitLines newC))
      (splitLines newC)).getD p ⟨[], [], 0⟩ ∈
      mainPass (buildMap (splitLines oldC)) (buildMap (splitLines newC)) (splitLines newC) := by
    rw [List.getD_eq_getElem _ _ hlt]
    exact List.getElem_mem _
  have hcontra := mainPass_removed_in_new (splitLines oldC) (splitLines newC) _ hmem
    (by rw [← hget]; exact hrem)
  rw [← hget] at hcontra
  exact hcontra hpure

/-- Witness for C8: diffing `"a: 1\nb: 2"` against `"a: 1"` yields a
single pure-removed record for `"b: 2"`, sitting at position 0, past the
empty main pass. -/
theorem claim8_witness :
    (mainPass (buildMap (splitLines "a: 1\nb: 2".data)) (buildMap (splitLines "a: 1".data))
      (splitLines "a: 1".data)).length ≤ 0 ∧
    DiffYAML "a: 1\nb: 2".data "a: 1".data =
      mainPass (buildMap (splitLines "a: 1\nb: 2".data)) (buildMap (splitLines "a: 1".data))
        (splitLines "a: 1".data) ++
        removedTail (buildMap (splitLines "a: 1\nb: 2".data))
          (buildMap (splitLines "a: 1".data)) :=
  claim8_removed_after_main "a: 1\nb: 2".data "a: 1".data 0
    (by decide) (by decide) (by decide)

/-- C10: when a key occurs on several lines of one document, the per-side
key map records the occurrence with the greatest line index, so lookup
returns the line text and index of the final occurrence. -/
theorem claim10_last_occurrence (text k : Str) (j : Nat) (hk : k ≠ [])
    (hj : j < (splitLines text).length)
    (hkey : extractKey ((splitLines text).getD j []) = k)
    (hlast : ∀ j', j < j' → j' < (splitLines text).length →
      extractKey ((splitLines text).getD j' []) ≠ k) :
    mapLookup (buildMap (splitLines text)) k = some ((splitLines text).getD j [], j) := by
  rw [buildMap, buildMapFrom_lookup k hk,
    lastIdxOf_of_last k (splitLines text) j hj hkey hlast]
  simp

/-- Witness for C10: in `"a: 1\na: 2"` the key `a` occurs on lines 0 and
1; the map records the final occurrence, line 1. -/
theorem claim10_witness :
    mapLookup (buildMap (splitLines "a: 1\na: 2".data)) "a".data = some ("a: 2".data, 1) := by
  have hlen : (splitLines "a: 1\na: 2".data).length = 2 := by decide
  exact claim10_last_occurrence "a: 1\na: 2".data "a".data 1 (by decide)
    (by decide) (by decide)
    (fun j' h1 h2 => absurd h1 (by rw [hlen] at h2; omega))

end LazyHelm
